import Mathlib

/-!
Verification of the race-strategy evaluator (racestrategy.py).

Durations are modelled as exact rational numbers of seconds, fuel as
rational litres.  Python's `math.ceil` becomes `Int.ceil` on `ℚ`, and the
evaluator's per-strategy loop body is factored out as `evalStrategy`.
The final `sorted(..., key=laps_at_zero, reverse=True)` over the result
dict is modelled as a stable merge sort over an association list.
-/

namespace RaceStrategy

/-- Time to change tyres: 20 seconds (`TIME_TO_CHANGE_TYRES`). -/
def TIME_TO_CHANGE_TYRES : ℚ := 20

/-- Time to fill one litre: 190000 microseconds = 0.19 seconds. -/
def TIME_TO_FILL_ONE_LITRE : ℚ := 19 / 100

/-- Fuel safety buffer, in litres. -/
def FUEL_SAFETY_BUFFER_LITRES : ℚ := 1

/-- Threshold (in fractional laps) under which an extra lap of fuel is added. -/
def FUEL_SAFETY_EXTRA_LAP_THRESHOLD : ℚ := 15 / 100

/-- Time lost at the race start: 3 seconds. -/
def TIME_LOST_AT_RACE_START : ℚ := 3

/-- The three strategy identifiers (`STRATEGY_ARGS`, after `-` → `_`). -/
inductive Strategy : Type
| soft_50 : Strategy
| med_50 : Strategy
| med_99 : Strategy
deriving DecidableEq, Repr

/-- Tyre deterioration table (`TYRE_DETERIORATION`), in percent. -/
def TYRE_DETERIORATION : Strategy → ℚ
| Strategy.soft_50 => 14 / 10
| Strategy.med_50 => 4 / 10
| Strategy.med_99 => 4 / 10

/-- The `StrategyResult` namedtuple. -/
structure StrategyResult : Type where
  laps_at_zero : ℚ
  total_laps : ℚ
  total_fuel : ℚ
  normalised_lap_time : ℚ
  total_time : ℚ
  pit_stop_time : ℚ
deriving DecidableEq, Repr

/-- Pit-stop time for a strategy given the litres to be refilled
(`get_pit_stop_time_for_strategy`). -/
def get_pit_stop_time_for_strategy (strategy : Strategy) (litres : ℚ) : ℚ :=
  let refill_time := litres * TIME_TO_FILL_ONE_LITRE
  match strategy with
  | Strategy.soft_50 => max (refill_time / 2) TIME_TO_CHANGE_TYRES
  | Strategy.med_50 => refill_time / 2
  | Strategy.med_99 => TIME_TO_FILL_ONE_LITRE

/-- Lap count for a race time and lap time (`calculate_laps`); with
`full = true` the quotient is rounded up, else it is kept fractional. -/
def calculate_laps (race_time lap_time : ℚ) (full : Bool) : ℚ :=
  if full then ((⌈race_time / lap_time⌉ : ℤ) : ℚ) else race_time / lap_time

/-- Fuel for a number of laps (`calculate_fuel`). -/
def calculate_fuel (litres_per_lap laps : ℚ) : ℚ :=
  ((⌈litres_per_lap * laps + FUEL_SAFETY_BUFFER_LITRES⌉ : ℤ) : ℚ)

/-- Total race time (`calculate_total_time`). -/
def calculate_total_time (laps lap_time : ℚ) : ℚ :=
  lap_time * laps

/-- Total lost time (`calculate_lost_time`). -/
def calculate_lost_time (pit_stop_time time_lost_driving_through_pits : ℚ) : ℚ :=
  TIME_LOST_AT_RACE_START + time_lost_driving_through_pits + pit_stop_time

/-- Body of the per-strategy loop of `get_strategies`: evaluates one strategy
from its sample lap times and the shared race parameters. -/
def evalStrategy (race_time litres_per_lap time_lost_driving_through_pits : ℚ)
    (strat : Strategy) (lap_times : List ℚ) : StrategyResult :=
  let raw_mean := lap_times.sum / (lap_times.length : ℚ)
  let add_time := raw_mean / 100 * (TYRE_DETERIORATION strat / 2)
  let raw_lap_time := raw_mean + add_time
  let naive_laps := calculate_laps race_time raw_lap_time true
  let naive_fuel := calculate_fuel litres_per_lap naive_laps
  let pit_stop_time := get_pit_stop_time_for_strategy strat naive_fuel
  let lap_time := raw_lap_time +
    calculate_lost_time pit_stop_time time_lost_driving_through_pits / naive_laps
  let laps := calculate_laps race_time lap_time true
  let laps_at_zero := calculate_laps race_time lap_time false
  let fuel_laps :=
    if ((⌈laps_at_zero⌉ : ℤ) : ℚ) - laps_at_zero ≤ FUEL_SAFETY_EXTRA_LAP_THRESHOLD
    then laps + 1 else laps
  let fuel := calculate_fuel litres_per_lap fuel_laps
  let time := calculate_total_time laps lap_time
  ⟨laps_at_zero, laps, fuel, lap_time, time,
    pit_stop_time + time_lost_driving_through_pits⟩

/-- The strategy evaluator (`get_strategies`): evaluates every supplied
strategy and returns the results sorted descending by `laps_at_zero`
(a stable sort, like Python's `sorted` with `reverse=True`). -/
def get_strategies (race_time : ℚ) (strategies_to_times : List (Strategy × List ℚ))
    (litres_per_lap time_lost_driving_through_pits : ℚ) :
    List (Strategy × StrategyResult) :=
  let out := strategies_to_times.map fun p =>
    (p.1, evalStrategy race_time litres_per_lap time_lost_driving_through_pits p.1 p.2)
  out.mergeSort fun a b => decide (b.2.laps_at_zero ≤ a.2.laps_at_zero)

/-- Lookup of a strategy's entry in an association list (the model of
Python's dict indexing on the evaluator's input and output mappings). -/
def lookupStrat {α : Type} (s : Strategy) : List (Strategy × α) → Option α
| [] => none
| (k, v) :: rest => if k = s then some v else lookupStrat s rest

/-- Every entry of the evaluator's output comes from evaluating one input
entry with `evalStrategy`. -/
theorem mem_get_strategies {race litres tlp : ℚ} {m : List (Strategy × List ℚ)}
    {s : Strategy} {r : StrategyResult}
    (h : (s, r) ∈ get_strategies race m litres tlp) :
    ∃ ts, (s, ts) ∈ m ∧ r = evalStrategy race litres tlp s ts := by
  simp only [get_strategies, List.mem_mergeSort] at h
  obtain ⟨⟨s2, ts⟩, hp, he⟩ := List.mem_map.mp h
  have h1 := congrArg Prod.fst he
  have h2 := congrArg Prod.snd he
  simp only at h1 h2
  subst h1
  exact ⟨ts, hp, h2.symm⟩

/-- C1: for a strategy with naive fuel requirement `litres`, the pit-stop
time is `max((litres * 0.19 s) / 2, 20 s)` for soft-50,
`(litres * 0.19 s) / 2` for med-50, and `0.19 s` (one litre) for med-99. -/
theorem pit_stop_time_formula (litres : ℚ) :
    get_pit_stop_time_for_strategy Strategy.soft_50 litres
        = max (litres * (19 / 100) / 2) 20 ∧
    get_pit_stop_time_for_strategy Strategy.med_50 litres
        = litres * (19 / 100) / 2 ∧
    get_pit_stop_time_for_strategy Strategy.med_99 litres = 19 / 100 :=
  ⟨rfl, rfl, rfl⟩

/-- C4: in every emitted Strategy Result, `total_laps` is the integer
ceiling of the fractional `laps_at_zero`, hence at least `laps_at_zero`. -/
theorem total_laps_ceil_of_mem (race : ℚ) (m : List (Strategy × List ℚ))
    (litres tlp : ℚ) (s : Strategy) (r : StrategyResult)
    (h : (s, r) ∈ get_strategies race m litres tlp) :
    r.total_laps = ((⌈r.laps_at_zero⌉ : ℤ) : ℚ) ∧ r.laps_at_zero ≤ r.total_laps := by
  obtain ⟨ts, _, rfl⟩ := mem_get_strategies h
  refine ⟨by simp [evalStrategy, calculate_laps], ?_⟩
  simp only [evalStrategy, calculate_laps, if_true, if_false]
  exact Int.le_ceil _

/-- Witness for C4 at a concrete evaluation. -/
theorem total_laps_ceil_witness :
    (Strategy.med_99, evalStrategy 3600 3 10 Strategy.med_99 [60])
        ∈ get_strategies 3600 [(Strategy.med_99, [60])] 3 10 ∧
    ((evalStrategy 3600 3 10 Strategy.med_99 [60]).total_laps
        = ((⌈(evalStrategy 3600 3 10 Strategy.med_99 [60]).laps_at_zero⌉ : ℤ) : ℚ) ∧
      (evalStrategy 3600 3 10 Strategy.med_99 [60]).laps_at_zero
        ≤ (evalStrategy 3600 3 10 Strategy.med_99 [60]).total_laps) :=
  ⟨by simp [get_strategies, List.mergeSort],
    total_laps_ceil_of_mem 3600 [(Strategy.med_99, [60])] 3 10 Strategy.med_99
      (evalStrategy 3600 3 10 Strategy.med_99 [60])
      (by simp [get_strategies, List.mergeSort])⟩

/-- C2: in every emitted Strategy Result the final fuel is
`ceil(litres_per_lap * fuel_laps + 1)` where `fuel_laps` is `total_laps + 1`
exactly when `ceil(laps_at_zero) - laps_at_zero ≤ 0.15`, else `total_laps`. -/
theorem total_fuel_formula_of_mem (race : ℚ) (m : List (Strategy × List ℚ))
    (litres tlp : ℚ) (s : Strategy) (r : StrategyResult)
    (h : (s, r) ∈ get_strategies race m litres tlp) :
    r.total_fuel =
      if ((⌈r.laps_at_zero⌉ : ℤ) : ℚ) - r.laps_at_zero ≤ 15 / 100
      then ((⌈litres * (r.total_laps + 1) + 1⌉ : ℤ) : ℚ)
      else ((⌈litres * r.total_laps + 1⌉ : ℤ) : ℚ) := by
  obtain ⟨ts, _, rfl⟩ := mem_get_strategies h
  simp only [evalStrategy, calculate_laps, calculate_fuel, FUEL_SAFETY_BUFFER_LITRES,
    FUEL_SAFETY_EXTRA_LAP_THRESHOLD, if_true, if_false]
  split_ifs <;> rfl

/-- Witness for C2 at a concrete evaluation. -/
theorem total_fuel_formula_witness :
    (Strategy.med_99, evalStrategy 3600 3 10 Strategy.med_99 [60])
        ∈ get_strategies 3600 [(Strategy.med_99, [60])] 3 10 ∧
    (evalStrategy 3600 3 10 Strategy.med_99 [60]).total_fuel =
      (if ((⌈(evalStrategy 3600 3 10 Strategy.med_99 [60]).laps_at_zero⌉ : ℤ) : ℚ)
            - (evalStrategy 3600 3 10 Strategy.med_99 [60]).laps_at_zero ≤ 15 / 100
      then ((⌈3 * ((evalStrategy 3600 3 10 Strategy.med_99 [60]).total_laps + 1) + 1⌉ : ℤ) : ℚ)
      else ((⌈3 * (evalStrategy 3600 3 10 Strategy.med_99 [60]).total_laps + 1⌉ : ℤ) : ℚ)) :=
  ⟨by simp [get_strategies, List.mergeSort],
    total_fuel_formula_of_mem 3600 [(Strategy.med_99, [60])] 3 10 Strategy.med_99
      (evalStrategy 3600 3 10 Strategy.med_99 [60])
      (by simp [get_strategies, List.mergeSort])⟩

/-- C6: `calculate_fuel` is monotone in both the fuel rate and the lap
count, for nonnegative inputs. -/
theorem calculate_fuel_mono (litres litres2 laps laps2 : ℚ)
    (h0 : 0 ≤ litres) (h1 : 0 ≤ laps) (h2 : litres ≤ litres2) (h3 : laps ≤ laps2) :
    calculate_fuel litres laps ≤ calculate_fuel litres2 laps2 := by
  unfold calculate_fuel
  have hm : litres * laps ≤ litres2 * laps2 :=
    mul_le_mul h2 h3 h1 (le_trans h0 h2)
  exact_mod_cast Int.ceil_mono (by unfold FUEL_SAFETY_BUFFER_LITRES; linarith)

/-- Witness for C6 at concrete inputs. -/
theorem calculate_fuel_mono_witness :
    (0 ≤ (1 : ℚ) ∧ 0 ≤ (3 : ℚ) ∧ (1 : ℚ) ≤ 2 ∧ (3 : ℚ) ≤ 4) ∧
    calculate_fuel 1 3 ≤ calculate_fuel 2 4 :=
  ⟨by norm_num,
    calculate_fuel_mono 1 2 3 4 (by norm_num) (by norm_num) (by norm_num) (by norm_num)⟩

/-- C5: the evaluator's output is ordered non-increasing in the fractional
`laps_at_zero` baseline. -/
theorem get_strategies_sorted_desc (race : ℚ) (m : List (Strategy × List ℚ))
    (litres tlp : ℚ) (hne : ∀ p ∈ m, p.2 ≠ []) :
    (get_strategies race m litres tlp).Pairwise
      (fun a b => b.2.laps_at_zero ≤ a.2.laps_at_zero) := by
  have htrans : ∀ a b c : Strategy × StrategyResult,
      (fun a b => decide (b.2.laps_at_zero ≤ a.2.laps_at_zero)) a b = true →
      (fun a b => decide (b.2.laps_at_zero ≤ a.2.laps_at_zero)) b c = true →
      (fun a b => decide (b.2.laps_at_zero ≤ a.2.laps_at_zero)) a c = true := by
    intro a b c hab hbc
    exact decide_eq_true (le_trans (of_decide_eq_true hbc) (of_decide_eq_true hab))
  have htotal : ∀ a b : Strategy × StrategyResult,
      ((fun a b => decide (b.2.laps_at_zero ≤ a.2.laps_at_zero)) a b ||
        (fun a b => decide (b.2.laps_at_zero ≤ a.2.laps_at_zero)) b a) = true := by
    intro a b
    rcases le_total a.2.laps_at_zero b.2.laps_at_zero with h | h
    · simp only [Bool.or_eq_true, decide_eq_true_eq]
      exact Or.inr h
    · simp only [Bool.or_eq_true, decide_eq_true_eq]
      exact Or.inl h
  have hs := List.sorted_mergeSort htrans htotal
    (m.map fun p => (p.1, evalStrategy race litres tlp p.1 p.2))
  simp only [get_strategies]
  exact hs.imp fun hab => of_decide_eq_true hab

/-- Witness for C5 at a concrete input. -/
theorem get_strategies_sorted_desc_witness :
    (∀ p ∈ [(Strategy.med_50, [(90 : ℚ)])], p.2 ≠ []) ∧
    (get_strategies 3600 [(Strategy.med_50, [(90 : ℚ)])] 3 10).Pairwise
      (fun a b => b.2.laps_at_zero ≤ a.2.laps_at_zero) :=
  ⟨by simp, get_strategies_sorted_desc 3600 [(Strategy.med_50, [(90 : ℚ)])] 3 10 (by simp)⟩

/-- C3: the normalised lap time is the sample mean bumped by half the
deterioration percentage, plus the lost time (3 s at the start, the pit
transit loss and the pit-stop time) amortised over the naive lap count. -/
theorem normalised_lap_time_formula (race litres tlp : ℚ) (strat : Strategy)
    (samples : List ℚ) (hne : samples ≠ []) :
    (evalStrategy race litres tlp strat samples).normalised_lap_time =
      samples.sum / (samples.length : ℚ) * (1 + TYRE_DETERIORATION strat / 200) +
        (3 + tlp + get_pit_stop_time_for_strategy strat
            (calculate_fuel litres
              ((⌈race / (samples.sum / (samples.length : ℚ)
                  * (1 + TYRE_DETERIORATION strat / 200))⌉ : ℤ) : ℚ))) /
          ((⌈race / (samples.sum / (samples.length : ℚ)
              * (1 + TYRE_DETERIORATION strat / 200))⌉ : ℤ) : ℚ) := by
  have key : samples.sum / (samples.length : ℚ)
      + samples.sum / (samples.length : ℚ) / 100 * (TYRE_DETERIORATION strat / 2)
      = samples.sum / (samples.length : ℚ) * (1 + TYRE_DETERIORATION strat / 200) := by
    ring
  simp only [evalStrategy, calculate_laps, calculate_lost_time, TIME_LOST_AT_RACE_START,
    if_true, if_false]
  rw [key]

/-- Witness for C3 at a concrete evaluation. -/
theorem normalised_lap_time_formula_witness :
    ([(90 : ℚ)] ≠ []) ∧
    (evalStrategy 3600 3 10 Strategy.soft_50 [(90 : ℚ)]).normalised_lap_time =
      [(90 : ℚ)].sum / (([(90 : ℚ)].length : ℕ) : ℚ)
          * (1 + TYRE_DETERIORATION Strategy.soft_50 / 200) +
        (3 + 10 + get_pit_stop_time_for_strategy Strategy.soft_50
            (calculate_fuel 3
              ((⌈(3600 : ℚ) / ([(90 : ℚ)].sum / (([(90 : ℚ)].length : ℕ) : ℚ)
                  * (1 + TYRE_DETERIORATION Strategy.soft_50 / 200))⌉ : ℤ) : ℚ))) /
          ((⌈(3600 : ℚ) / ([(90 : ℚ)].sum / (([(90 : ℚ)].length : ℕ) : ℚ)
              * (1 + TYRE_DETERIORATION Strategy.soft_50 / 200))⌉ : ℤ) : ℚ) :=
  ⟨by simp,
    normalised_lap_time_formula 3600 3 10 Strategy.soft_50 [(90 : ℚ)] (by simp)⟩

/-- Projection of the emitted pit-stop time of one evaluation: the
strategy-specific stop time at the naive fuel load, plus the pit transit
loss. -/
theorem eval_pit_eq (race litres tlp : ℚ) (strat : Strategy) (samples : List ℚ) :
    (evalStrategy race litres tlp strat samples).pit_stop_time
      = get_pit_stop_time_for_strategy strat
          (calculate_fuel litres
            (calculate_laps race
              (samples.sum / (samples.length : ℚ)
                + samples.sum / (samples.length : ℚ) / 100 * (TYRE_DETERIORATION strat / 2))
              true)) + tlp := rfl

/-- Projection of the fractional lap baseline of one evaluation. -/
theorem eval_laps_at_zero_eq (race litres tlp : ℚ) (strat : Strategy) (samples : List ℚ) :
    (evalStrategy race litres tlp strat samples).laps_at_zero
      = calculate_laps race
          ((samples.sum / (samples.length : ℚ)
              + samples.sum / (samples.length : ℚ) / 100 * (TYRE_DETERIORATION strat / 2))
            + calculate_lost_time
                (get_pit_stop_time_for_strategy strat
                  (calculate_fuel litres
                    (calculate_laps race
                      (samples.sum / (samples.length : ℚ)
                        + samples.sum / (samples.length : ℚ) / 100
                          * (TYRE_DETERIORATION strat / 2))
                      true)))
                tlp
              / calculate_laps race
                  (samples.sum / (samples.length : ℚ)
                    + samples.sum / (samples.length : ℚ) / 100
                      * (TYRE_DETERIORATION strat / 2))
                  true)
          false := rfl

/-- The sample mean of a nonempty list of positive lap times is positive. -/
theorem mean_pos (samples : List ℚ) (hne : samples ≠ []) (hpos : ∀ x ∈ samples, 0 < x) :
    0 < samples.sum / (samples.length : ℚ) :=
  div_pos (List.sum_pos samples hpos hne)
    (by exact_mod_cast List.length_pos.mpr hne)

/-- Tyre deterioration percentages are nonnegative. -/
theorem TYRE_DETERIORATION_nonneg (s : Strategy) : 0 ≤ TYRE_DETERIORATION s := by
  cases s <;> norm_num [TYRE_DETERIORATION]

/-- The pit-stop time is nonnegative for a nonnegative fuel load. -/
theorem pit_stop_time_nonneg (s : Strategy) (litres : ℚ) (h : 0 ≤ litres) :
    0 ≤ get_pit_stop_time_for_strategy s litres := by
  cases s
  · exact le_trans (by norm_num [TIME_TO_CHANGE_TYRES]) (le_max_right _ _)
  · simp only [get_pit_stop_time_for_strategy, TIME_TO_FILL_ONE_LITRE]
    positivity
  · norm_num [get_pit_stop_time_for_strategy, TIME_TO_FILL_ONE_LITRE]

/-- The rounded-up lap count is at least 1 when race and lap times are
positive. -/
theorem calculate_laps_full_ge_one (race lap : ℚ) (hrace : 0 < race) (hlap : 0 < lap) :
    (1 : ℚ) ≤ calculate_laps race lap true := by
  simp only [calculate_laps, if_true]
  have h : 0 < ⌈race / lap⌉ := Int.ceil_pos.mpr (div_pos hrace hlap)
  exact_mod_cast h

/-- The naive fuel load is at least 2 litres for a positive fuel rate and a
lap count of at least one. -/
theorem calculate_fuel_ge_two (litres laps : ℚ) (hl : 0 < litres) (hlap : 1 ≤ laps) :
    (2 : ℚ) ≤ calculate_fuel litres laps := by
  simp only [calculate_fuel, FUEL_SAFETY_BUFFER_LITRES]
  have h1 : 0 < litres * laps := mul_pos hl (lt_of_lt_of_le one_pos hlap)
  have h2 : (1 : ℤ) < ⌈litres * laps + 1⌉ := Int.lt_ceil.mpr (by push_cast; linarith)
  exact_mod_cast h2

/-- C7 (amended): with identical samples and parameters, med-99's emitted
pit-stop time is at most med-50's, strictly smaller exactly when the naive
fuel requirement exceeds 2 litres, and med-99's `laps_at_zero` is at least
med-50's, so med-99 is ranked no worse by the ranking key. -/
theorem med99_no_worse_than_med50 (race litres tlp : ℚ) (samples : List ℚ)
    (hrace : 0 < race) (hl : 0 < litres) (htlp : 0 ≤ tlp)
    (hne : samples ≠ []) (hpos : ∀ x ∈ samples, 0 < x) :
    (evalStrategy race litres tlp Strategy.med_99 samples).pit_stop_time
      ≤ (evalStrategy race litres tlp Strategy.med_50 samples).pit_stop_time ∧
    (2 < calculate_fuel litres
        (calculate_laps race
          (samples.sum / (samples.length : ℚ)
            + samples.sum / (samples.length : ℚ) / 100
              * (TYRE_DETERIORATION Strategy.med_50 / 2))
          true) ↔
      (evalStrategy race litres tlp Strategy.med_99 samples).pit_stop_time
        < (evalStrategy race litres tlp Strategy.med_50 samples).pit_stop_time) ∧
    (evalStrategy race litres tlp Strategy.med_50 samples).laps_at_zero
      ≤ (evalStrategy race litres tlp Strategy.med_99 samples).laps_at_zero := by
  have hdet : TYRE_DETERIORATION Strategy.med_99 = TYRE_DETERIORATION Strategy.med_50 := rfl
  have hmean : 0 < samples.sum / (samples.length : ℚ) := mean_pos samples hne hpos
  have hraw : 0 < samples.sum / (samples.length : ℚ)
      + samples.sum / (samples.length : ℚ) / 100 * (TYRE_DETERIORATION Strategy.med_50 / 2) := by
    have h2 : 0 ≤ samples.sum / (samples.length : ℚ) / 100
        * (TYRE_DETERIORATION Strategy.med_50 / 2) := by
      apply mul_nonneg (by linarith)
      have := TYRE_DETERIORATION_nonneg Strategy.med_50
      linarith
    linarith
  have hnl : (1 : ℚ) ≤ calculate_laps race
      (samples.sum / (samples.length : ℚ)
        + samples.sum / (samples.length : ℚ) / 100
          * (TYRE_DETERIORATION Strategy.med_50 / 2)) true :=
    calculate_laps_full_ge_one race _ hrace hraw
  have hfuel : (2 : ℚ) ≤ calculate_fuel litres
      (calculate_laps race
        (samples.sum / (samples.length : ℚ)
          + samples.sum / (samples.length : ℚ) / 100
            * (TYRE_DETERIORATION Strategy.med_50 / 2)) true) :=
    calculate_fuel_ge_two litres _ hl hnl
  have hpit99 : get_pit_stop_time_for_strategy Strategy.med_99
      (calculate_fuel litres
        (calculate_laps race
          (samples.sum / (samples.length : ℚ)
            + samples.sum / (samples.length : ℚ) / 100
              * (TYRE_DETERIORATION Strategy.med_50 / 2)) true)) = 19 / 100 := rfl
  have hpit50 : get_pit_stop_time_for_strategy Strategy.med_50
      (calculate_fuel litres
        (calculate_laps race
          (samples.sum / (samples.length : ℚ)
            + samples.sum / (samples.length : ℚ) / 100
              * (TYRE_DETERIORATION Strategy.med_50 / 2)) true))
      = calculate_fuel litres
          (calculate_laps race
            (samples.sum / (samples.length : ℚ)
              + samples.sum / (samples.length : ℚ) / 100
                * (TYRE_DETERIORATION Strategy.med_50 / 2)) true) * (19 / 100) / 2 := rfl
  refine ⟨?_, ?_, ?_⟩
  · rw [eval_pit_eq, eval_pit_eq, hdet, hpit99, hpit50]
    linarith
  · rw [eval_pit_eq, eval_pit_eq, hdet, hpit99, hpit50]
    constructor
    · intro hstrict
      linarith
    · intro hlt
      linarith
  · rw [eval_laps_at_zero_eq, eval_laps_at_zero_eq, hdet, hpit99, hpit50]
    simp only [calculate_laps, if_false, calculate_lost_time, TIME_LOST_AT_RACE_START]
    have hnl2 : (0 : ℚ) < calculate_laps race
        (samples.sum / (samples.length : ℚ)
          + samples.sum / (samples.length : ℚ) / 100
            * (TYRE_DETERIORATION Strategy.med_50 / 2)) true := lt_of_lt_of_le one_pos hnl
    rw [calculate_laps] at hnl2
    simp only [if_true] at hnl2
    have hlost99 : (0 : ℚ) ≤ (3 + tlp + 19 / 100) /
        ((⌈race / (samples.sum / (samples.length : ℚ)
          + samples.sum / (samples.length : ℚ) / 100
            * (TYRE_DETERIORATION Strategy.med_50 / 2))⌉ : ℤ) : ℚ) := by
      apply div_nonneg (by linarith) (le_of_lt hnl2)
    have hfuel2 : (2 : ℚ) ≤ calculate_fuel litres
        (calculate_laps race
          (samples.sum / (samples.length : ℚ)
            + samples.sum / (samples.length : ℚ) / 100
              * (TYRE_DETERIORATION Strategy.med_50 / 2)) true) := hfuel
    rw [calculate_fuel, calculate_laps] at hfuel2
    simp only [if_true] at hfuel2
    apply div_le_div_of_nonneg_left (le_of_lt hrace)
    · apply lt_of_lt_of_le (lt_of_lt_of_le hraw (le_add_of_nonneg_right hlost99))
      simp only [calculate_laps, calculate_fuel, if_true]
      exact le_refl _
    · simp only [calculate_laps, calculate_fuel, if_true]
      apply add_le_add_left
      exact (div_le_div_right hnl2).mpr (by linarith)

/-- Witness for C7 (amended) at a concrete evaluation. -/
theorem med99_no_worse_than_med50_witness :
    (0 < (3600 : ℚ) ∧ 0 < (3 : ℚ) ∧ 0 ≤ (10 : ℚ) ∧ [(90 : ℚ)] ≠ [] ∧
      (∀ x ∈ [(90 : ℚ)], 0 < x)) ∧
    ((evalStrategy 3600 3 10 Strategy.med_99 [(90 : ℚ)]).pit_stop_time
      ≤ (evalStrategy 3600 3 10 Strategy.med_50 [(90 : ℚ)]).pit_stop_time ∧
    (2 < calculate_fuel 3
        (calculate_laps 3600
          ([(90 : ℚ)].sum / (([(90 : ℚ)].length : ℕ) : ℚ)
            + [(90 : ℚ)].sum / (([(90 : ℚ)].length : ℕ) : ℚ) / 100
              * (TYRE_DETERIORATION Strategy.med_50 / 2))
          true) ↔
      (evalStrategy 3600 3 10 Strategy.med_99 [(90 : ℚ)]).pit_stop_time
        < (evalStrategy 3600 3 10 Strategy.med_50 [(90 : ℚ)]).pit_stop_time) ∧
    (evalStrategy 3600 3 10 Strategy.med_50 [(90 : ℚ)]).laps_at_zero
      ≤ (evalStrategy 3600 3 10 Strategy.med_99 [(90 : ℚ)]).laps_at_zero) :=
  ⟨⟨by norm_num, by norm_num, by norm_num, by simp, by simp⟩,
    med99_no_worse_than_med50 3600 3 10 [(90 : ℚ)] (by norm_num) (by norm_num)
      (by norm_num) (by simp) (by simp)⟩

/-- Counterexample to C7 as stated: with samples of 60 s, a fuel rate of
0.01 l/lap and a 60-minute race, the naive fuel load is 2 litres, so
med-99's pit-stop time (one litre's fill) equals med-50's (half of two
litres), and is not strictly smaller. -/
theorem med99_pit_strict_counterexample :
    ¬ ((evalStrategy 3600 (1 / 100) 10 Strategy.med_99 [60]).pit_stop_time
        < (evalStrategy 3600 (1 / 100) 10 Strategy.med_50 [60]).pit_stop_time) := by
  rw [eval_pit_eq, eval_pit_eq]
  have hs : ([(60 : ℚ)].sum / (([(60 : ℚ)].length : ℕ) : ℚ)) = 60 := by norm_num
  rw [hs]
  simp only [TYRE_DETERIORATION]
  have hraw : (60 : ℚ) + 60 / 100 * (4 / 10 / 2) = 1503 / 25 := by norm_num
  rw [hraw]
  have hceil : calculate_laps 3600 (1503 / 25) true = 60 := by
    simp only [calculate_laps, if_true]
    have h : (⌈(3600 : ℚ) / (1503 / 25)⌉ : ℤ) = 60 := by norm_num [Int.ceil_eq_iff]
    rw [h]
    norm_num
  rw [hceil]
  have hfuel : calculate_fuel (1 / 100) 60 = 2 := by
    simp only [calculate_fuel, FUEL_SAFETY_BUFFER_LITRES]
    have h : (⌈(1 : ℚ) / 100 * 60 + 1⌉ : ℤ) = 2 := by norm_num [Int.ceil_eq_iff]
    rw [h]
    norm_num
  rw [hfuel]
  norm_num [get_pit_stop_time_for_strategy, TIME_TO_FILL_ONE_LITRE]

/-- Lookup in an association list with distinct keys finds any entry the
list holds. -/
theorem lookupStrat_some_of_mem {α : Type} {l : List (Strategy × α)}
    (hnodup : (l.map Prod.fst).Nodup) {s : Strategy} {b : α} (hmem : (s, b) ∈ l) :
    lookupStrat s l = some b := by
  induction l with
  | nil => cases hmem
  | cons p rest ih =>
    obtain ⟨k, v⟩ := p
    simp only [List.map_cons, List.nodup_cons] at hnodup
    rcases List.mem_cons.mp hmem with heq | hmem2
    · have hsk : s = k := congrArg Prod.fst heq
      have hbv : b = v := congrArg Prod.snd heq
      subst hsk
      subst hbv
      simp [lookupStrat]
    · have hmemfst : s ∈ rest.map Prod.fst := List.mem_map.mpr ⟨(s, b), hmem2, rfl⟩
      have hks : ¬ (k = s) := fun he => hnodup.1 (by rw [he]; exact hmemfst)
      simp only [lookupStrat, if_neg hks]
      exact ih hnodup.2 hmem2

/-- A successful lookup exhibits a member of the association list. -/
theorem mem_of_lookupStrat_some {α : Type} {l : List (Strategy × α)}
    {s : Strategy} {b : α} (h : lookupStrat s l = some b) : (s, b) ∈ l := by
  induction l with
  | nil => simp [lookupStrat] at h
  | cons p rest ih =>
    obtain ⟨k, v⟩ := p
    by_cases hk : k = s
    · subst hk
      simp only [lookupStrat, if_true, eq_self_iff_true, Option.some.injEq] at h
      subst h
      exact List.mem_cons_self _ _
    · simp only [lookupStrat, if_neg hk] at h
      exact List.mem_cons_of_mem _ (ih h)

/-- The evaluator permutes the input's strategy keys. -/
theorem get_strategies_keys_perm (race : ℚ) (m : List (Strategy × List ℚ))
    (litres tlp : ℚ) :
    ((get_strategies race m litres tlp).map Prod.fst).Perm (m.map Prod.fst) := by
  have hp := List.mergeSort_perm
    (m.map fun p => (p.1, evalStrategy race litres tlp p.1 p.2))
    (fun a b => decide (b.2.laps_at_zero ≤ a.2.laps_at_zero))
  have hmap := hp.map Prod.fst
  simp only [get_strategies]
  refine hmap.trans ?_
  rw [List.map_map]
  have hf : (Prod.fst ∘ fun p : Strategy × List ℚ =>
      (p.1, evalStrategy race litres tlp p.1 p.2)) = Prod.fst := funext fun p => rfl
  rw [hf]

/-- With distinct input keys, looking a strategy up in the evaluator's
output yields exactly the evaluation of that strategy's own samples. -/
theorem lookup_get_strategies (race litres tlp : ℚ) {m : List (Strategy × List ℚ)}
    {s : Strategy} {ts : List ℚ}
    (hnodup : (m.map Prod.fst).Nodup) (h : lookupStrat s m = some ts) :
    lookupStrat s (get_strategies race m litres tlp)
      = some (evalStrategy race litres tlp s ts) := by
  have hmem : (s, ts) ∈ m := mem_of_lookupStrat_some h
  have hmem2 : (s, evalStrategy race litres tlp s ts) ∈ get_strategies race m litres tlp := by
    simp only [get_strategies, List.mem_mergeSort]
    exact List.mem_map.mpr ⟨(s, ts), hmem, rfl⟩
  have hnodup2 : ((get_strategies race m litres tlp).map Prod.fst).Nodup :=
    ((get_strategies_keys_perm race m litres tlp).nodup_iff).mpr hnodup
  exact lookupStrat_some_of_mem hnodup2 hmem2

/-- C10: per-strategy noninterference — a strategy's Strategy Result depends
only on its own samples and the shared race parameters: two inputs with
distinct keys that agree on strategy `s`'s samples produce the identical
result for `s`, namely the evaluation of those samples alone. -/
theorem strategy_result_noninterference (race litres tlp : ℚ)
    (m1 m2 : List (Strategy × List ℚ)) (s : Strategy) (ts : List ℚ)
    (h1 : (m1.map Prod.fst).Nodup) (h2 : (m2.map Prod.fst).Nodup)
    (hts : ts ≠ [])
    (g1 : lookupStrat s m1 = some ts) (g2 : lookupStrat s m2 = some ts) :
    lookupStrat s (get_strategies race m1 litres tlp)
        = some (evalStrategy race litres tlp s ts) ∧
    lookupStrat s (get_strategies race m1 litres tlp)
        = lookupStrat s (get_strategies race m2 litres tlp) := by
  have a1 := lookup_get_strategies race litres tlp h1 g1
  have a2 := lookup_get_strategies race litres tlp h2 g2
  exact ⟨a1, a1.trans a2.symm⟩

/-- Witness for C10 at concrete inputs differing in the other strategies. -/
theorem strategy_result_noninterference_witness :
    (([(Strategy.med_50, [(50 : ℚ)]), (Strategy.med_99, [60])].map Prod.fst).Nodup ∧
      ([(Strategy.med_99, [(60 : ℚ)])].map Prod.fst).Nodup ∧
      [(60 : ℚ)] ≠ [] ∧
      lookupStrat Strategy.med_99
        [(Strategy.med_50, [(50 : ℚ)]), (Strategy.med_99, [60])] = some [60] ∧
      lookupStrat Strategy.med_99 [(Strategy.med_99, [(60 : ℚ)])] = some [60]) ∧
    (lookupStrat Strategy.med_99
        (get_strategies 3600 [(Strategy.med_50, [(50 : ℚ)]), (Strategy.med_99, [60])] 3 10)
          = some (evalStrategy 3600 3 10 Strategy.med_99 [60]) ∧
      lookupStrat Strategy.med_99
          (get_strategies 3600 [(Strategy.med_50, [(50 : ℚ)]), (Strategy.med_99, [60])] 3 10)
        = lookupStrat Strategy.med_99
            (get_strategies 3600 [(Strategy.med_99, [(60 : ℚ)])] 3 10)) :=
  ⟨⟨by simp, by simp, by simp, by simp [lookupStrat], by simp [lookupStrat]⟩,
    strategy_result_noninterference 3600 3 10
      [(Strategy.med_50, [(50 : ℚ)]), (Strategy.med_99, [60])]
      [(Strategy.med_99, [(60 : ℚ)])] Strategy.med_99 [60]
      (by simp) (by simp) (by simp) (by simp [lookupStrat]) (by simp [lookupStrat])⟩

/-!
The duration parser `msm_to_tds` wraps `datetime.strptime(td_str, "%M:%S.%f")`
and converts the result to a timedelta.  We model durations as natural
numbers of microseconds and the strptime regex (minutes `[0-5]\d|\d`,
seconds `6[0-1]|[0-5]\d|\d`, fraction `[0-9]{1,6}`, anchored at the start,
with strptime's trailing unconverted-data check and the datetime
constructor's `second ≤ 59` validation) at the character level, with
ordered alternatives carrying their full continuation to mirror regex
backtracking.  The explicit character classes (`[0-5]`, `6[0-1]`, and the
fraction's `[0-9]{1,6}`) are ASCII ranges; `\d`, which Python compiles
without `re.ASCII`, matches any Unicode decimal digit (category Nd) and is
modelled through the table of Nd blocks below.
-/

/-- Value of an ASCII digit character. -/
def digitVal (c : Char) : ℕ := c.toNat - 48

/-- Value of a string of ASCII digits, most significant first. -/
def digitsVal (cs : List Char) : ℕ := cs.foldl (fun acc c => 10 * acc + digitVal c) 0

/-- Greedily take at most `n` leading digits, returning them and the rest. -/
def takeDigits : ℕ → List Char → List Char × List Char
| 0, cs => ([], cs)
| _ + 1, [] => ([], [])
| n + 1, c :: cs =>
  if c.isDigit then
    let p := takeDigits n cs
    (c :: p.1, p.2)
  else ([], c :: cs)

/-- Start code points of the Unicode decimal-digit (category Nd) blocks.
Every Nd character sits in a run of ten code points carrying the digit
values 0 through 9 in order; Python's `\d` on str patterns matches exactly
these characters, and `int()` converts each by its value in its block. -/
def pyDigitBlocks : List ℕ :=
  [48, 0x660, 0x6F0, 0x7C0, 0x966, 0x9E6, 0xA66, 0xAE6, 0xB66, 0xBE6,
    0xC66, 0xCE6, 0xD66, 0xDE6, 0xE50, 0xED0, 0xF20, 0x1040, 0x1090, 0x17E0,
    0x1810, 0x1946, 0x19D0, 0x1A80, 0x1A90, 0x1B50, 0x1BB0, 0x1C40, 0x1C50, 0xA620,
    0xA8D0, 0xA900, 0xA9D0, 0xA9F0, 0xAA50, 0xABF0, 0xFF10, 0x104A0, 0x10D30, 0x11066,
    0x110F0, 0x11136, 0x111D0, 0x112F0, 0x11450, 0x114D0, 0x11650, 0x116C0, 0x11730, 0x118E0,
    0x11950, 0x11C50, 0x11D50, 0x11DA0, 0x16A60, 0x16AC0, 0x16B50, 0x1D7CE, 0x1D7D8, 0x1D7E2,
    0x1D7EC, 0x1D7F6, 0x1E140, 0x1E2F0, 0x1E950, 0x1FBF0]

/-- The Nd block a character belongs to, when it is a decimal digit. -/
def pyDigitBlock (c : Char) : Option ℕ :=
  pyDigitBlocks.find? fun b => decide (b ≤ c.toNat ∧ c.toNat ≤ b + 9)

/-- Whether a character is a Unicode decimal digit (Python's `\d`). -/
def isPyDigit (c : Char) : Bool := (pyDigitBlock c).isSome

/-- The decimal value of a Unicode decimal digit (what `int()` uses). -/
def pyDigitVal (c : Char) : ℕ :=
  match pyDigitBlock c with
  | some b => c.toNat - b
  | none => 0

/-- After the seconds group: a literal dot, then `[0-9]{1,6}` taken
greedily, and nothing may remain (strptime's unconverted-data check).
Returns minutes, seconds, fraction value and fraction digit count. -/
def msmFrac (m sec : ℕ) : List Char → Option (ℕ × ℕ × ℕ × ℕ)
| [] => none
| c :: cs =>
  if c = '.' then
    let p := takeDigits 6 cs
    if 1 ≤ p.1.length ∧ p.2 = [] then some (m, sec, digitsVal p.1, p.1.length) else none
  else none

/-- The seconds group `6[0-1]|[0-5]\d|\d`, alternatives tried in order with
the continuation, as the regex engine would backtrack; `\d` is any Unicode
decimal digit. -/
def msmSec (m : ℕ) (cs : List Char) : Option (ℕ × ℕ × ℕ × ℕ) :=
  (match cs with
   | c1 :: c2 :: rest =>
     if c1.toNat = 54 ∧ (c2.toNat = 48 ∨ c2.toNat = 49)
     then msmFrac m (60 + pyDigitVal c2) rest else none
   | _ => none) <|>
  (match cs with
   | c1 :: c2 :: rest =>
     if (48 ≤ c1.toNat ∧ c1.toNat ≤ 53) ∧ isPyDigit c2 = true
     then msmFrac m (10 * pyDigitVal c1 + pyDigitVal c2) rest else none
   | _ => none) <|>
  (match cs with
   | c :: rest => if isPyDigit c = true then msmFrac m (pyDigitVal c) rest else none
   | _ => none)

/-- After the minutes group: a literal colon, then the seconds group. -/
def msmMin (m : ℕ) : List Char → Option (ℕ × ℕ × ℕ × ℕ)
| [] => none
| c :: cs => if c = ':' then msmSec m cs else none

/-- The whole `%M:%S.%f` regex match: minutes group `[0-5]\d|\d`, colon,
seconds group, dot, fraction; `\d` is any Unicode decimal digit. -/
def msmMatch (cs : List Char) : Option (ℕ × ℕ × ℕ × ℕ) :=
  (match cs with
   | c1 :: c2 :: rest =>
     if (48 ≤ c1.toNat ∧ c1.toNat ≤ 53) ∧ isPyDigit c2 = true
     then msmMin (10 * pyDigitVal c1 + pyDigitVal c2) rest else none
   | _ => none) <|>
  (match cs with
   | c :: rest => if isPyDigit c = true then msmMin (pyDigitVal c) rest else none
   | _ => none)

/-- The duration parser (`msm_to_tds`): strptime's regex match, the
fraction padded right to six digits, the datetime constructor's field
validation, and the timedelta's total microsecond count. -/
def msm_to_tds (td_str : String) : Option ℕ :=
  (msmMatch td_str.data).bind fun r =>
    if r.1 ≤ 59 ∧ r.2.1 ≤ 59 ∧ r.2.2.1 * 10 ^ (6 - r.2.2.2) ≤ 999999
    then some (r.1 * 60000000 + r.2.1 * 1000000 + r.2.2.1 * 10 ^ (6 - r.2.2.2))
    else none

/-- ASCII digit character for a value below ten. -/
def digitChar (n : ℕ) : Char := Char.ofNat (48 + n)

/-- Modelled from the spec: the program itself emits no `MM:SS.ffffff`
rendering of a duration (its output uses timedelta's default `H:MM:SS`
form), so the fixed-width two-digit-minutes, two-digit-seconds,
six-digit-microseconds `MM:SS.ffffff` formatter named by the spec's
round-trip property (e.g. `01:45.235000`) is modelled here from the
spec's words. -/
def formatMSM (d : ℕ) : String :=
  let m := d / 60000000
  let sec := d / 1000000 % 60
  let ms := d % 1000000
  String.mk [digitChar (m / 10), digitChar (m % 10), ':',
    digitChar (sec / 10), digitChar (sec % 10), '.',
    digitChar (ms / 100000), digitChar (ms / 10000 % 10), digitChar (ms / 1000 % 10),
    digitChar (ms / 100 % 10), digitChar (ms / 10 % 10), digitChar (ms % 10)]

/-- The spec's duration text format, as a relation between a string and the
duration in microseconds it denotes: one or two digits of minutes (value at
most 59), a colon, one or two digits of seconds (value at most 59), a dot,
and one to six digits of fractional seconds padded right to microseconds. -/
def MSMSpec (s : String) (d : ℕ) : Prop :=
  ∃ mcs scs fcs : List Char,
    s.data = mcs ++ ':' :: (scs ++ '.' :: fcs) ∧
    (∀ c ∈ mcs, c.isDigit = true) ∧ 1 ≤ mcs.length ∧ mcs.length ≤ 2 ∧
      digitsVal mcs ≤ 59 ∧
    (∀ c ∈ scs, c.isDigit = true) ∧ 1 ≤ scs.length ∧ scs.length ≤ 2 ∧
      digitsVal scs ≤ 59 ∧
    (∀ c ∈ fcs, c.isDigit = true) ∧ 1 ≤ fcs.length ∧ fcs.length ≤ 6 ∧
    d = digitsVal mcs * 60000000 + digitsVal scs * 1000000
          + digitsVal fcs * 10 ^ (6 - fcs.length)

/-- A character is an ASCII digit exactly when its code point lies between
48 and 57. -/
theorem isDigit_iff_toNat (c : Char) : c.isDigit = true ↔ (48 ≤ c.toNat ∧ c.toNat ≤ 57) := by
  simp [Char.isDigit, UInt32.le_def, BitVec.le_def, Char.toNat, UInt32.toNat]

/-- A digit's value is at most 9. -/
theorem digitVal_le_nine {c : Char} (h : c.isDigit = true) : digitVal c ≤ 9 := by
  have h2 := (isDigit_iff_toNat c).mp h
  simp only [digitVal]
  omega

/-- An ASCII digit's Nd block is the ASCII block starting at 48. -/
theorem pyDigitBlock_of_ascii {c : Char} (h : 48 ≤ c.toNat ∧ c.toNat ≤ 57) :
    pyDigitBlock c = some 48 := by
  simp only [pyDigitBlock, pyDigitBlocks]
  exact List.find?_cons_of_pos _ (decide_eq_true ⟨h.1, by omega⟩)

/-- Every ASCII digit is a Unicode decimal digit. -/
theorem isPyDigit_of_isDigit {c : Char} (h : c.isDigit = true) : isPyDigit c = true := by
  rw [isPyDigit, pyDigitBlock_of_ascii ((isDigit_iff_toNat c).mp h)]
  rfl

/-- On ASCII digits the Unicode digit value is the ASCII digit value. -/
theorem pyDigitVal_of_isDigit {c : Char} (h : c.isDigit = true) :
    pyDigitVal c = digitVal c := by
  unfold pyDigitVal
  rw [pyDigitBlock_of_ascii ((isDigit_iff_toNat c).mp h)]
  rfl

/-- Within the ASCII range, the only Unicode decimal digits are `0`-`9`. -/
theorem isDigit_of_isPyDigit_ascii {c : Char} (h : isPyDigit c = true)
    (ha : c.toNat ≤ 127) : c.isDigit = true := by
  rw [isPyDigit] at h
  obtain ⟨b, hb⟩ := Option.isSome_iff_exists.mp h
  have hmem := List.mem_of_find?_eq_some hb
  have hp := List.find?_some hb
  simp only [decide_eq_true_eq] at hp
  have hblocks : ∀ x ∈ pyDigitBlocks, x = 48 ∨ 1632 ≤ x := by decide
  rcases hblocks b hmem with rfl | hge
  · rw [isDigit_iff_toNat]
    omega
  · omega

/-- Value of a one-digit string. -/
theorem digitsVal_one (c : Char) : digitsVal [c] = digitVal c := by
  simp [digitsVal]

/-- Value of a two-digit string. -/
theorem digitsVal_two (c1 c2 : Char) :
    digitsVal [c1, c2] = 10 * digitVal c1 + digitVal c2 := by
  simp only [digitsVal, List.foldl_cons, List.foldl_nil]
  omega

/-- Folding the digit accumulator from `acc` prefixes `acc` as higher-order
digits. -/
theorem foldl_digitsVal (cs : List Char) : ∀ acc : ℕ,
    cs.foldl (fun a c => 10 * a + digitVal c) acc = acc * 10 ^ cs.length + digitsVal cs := by
  induction cs with
  | nil => intro acc; simp [digitsVal]
  | cons c cs ih =>
    intro acc
    have h2 : digitsVal (c :: cs) = digitVal c * 10 ^ cs.length + digitsVal cs := by
      simp only [digitsVal, List.foldl_cons]
      rw [ih (10 * 0 + digitVal c)]
      have h3 : 10 * 0 + digitVal c = digitVal c := by omega
      rw [h3]
      rfl
    simp only [List.foldl_cons, List.length_cons]
    rw [ih (10 * acc + digitVal c), h2, pow_succ]
    ring

/-- A string of digits has value below `10 ^ length`. -/
theorem digitsVal_lt (cs : List Char) (h : ∀ c ∈ cs, c.isDigit = true) :
    digitsVal cs < 10 ^ cs.length := by
  induction cs with
  | nil => simp [digitsVal]
  | cons c cs ih =>
    have hc : digitVal c ≤ 9 := digitVal_le_nine (h c (List.mem_cons_self c cs))
    have hcs := ih fun x hx => h x (List.mem_cons_of_mem c hx)
    have h2 : digitsVal (c :: cs) = digitVal c * 10 ^ cs.length + digitsVal cs := by
      simp only [digitsVal, List.foldl_cons]
      rw [foldl_digitsVal]
      have h3 : 10 * 0 + digitVal c = digitVal c := by omega
      rw [h3]
      rfl
    rw [h2, List.length_cons, pow_succ]
    nlinarith [pow_pos (show (0 : ℕ) < 10 by norm_num) cs.length]

/-- The digits taken, followed by the rest, reassemble the input. -/
theorem takeDigits_append : ∀ (n : ℕ) (cs : List Char),
    (takeDigits n cs).1 ++ (takeDigits n cs).2 = cs
| 0, _ => rfl
| _ + 1, [] => rfl
| n + 1, c :: cs => by
  by_cases h : c.isDigit = true
  · simp only [takeDigits, if_pos h, List.cons_append]
    rw [takeDigits_append n cs]
  · simp [takeDigits, if_neg h]

/-- Every character taken is a digit. -/
theorem takeDigits_digits : ∀ (n : ℕ) (cs : List Char),
    ∀ c ∈ (takeDigits n cs).1, c.isDigit = true
| 0, _ => by simp [takeDigits]
| _ + 1, [] => by simp [takeDigits]
| n + 1, c :: cs => by
  by_cases h : c.isDigit = true
  · simp only [takeDigits, if_pos h]
    intro x hx
    rcases List.mem_cons.mp hx with heq | hx2
    · rw [heq]; exact h
    · exact takeDigits_digits n cs x hx2
  · simp [takeDigits, if_neg h]

/-- At most `n` characters are taken. -/
theorem takeDigits_length : ∀ (n : ℕ) (cs : List Char), (takeDigits n cs).1.length ≤ n
| 0, _ => by simp [takeDigits]
| _ + 1, [] => by simp [takeDigits]
| n + 1, c :: cs => by
  by_cases h : c.isDigit = true
  · simp only [takeDigits, if_pos h, List.length_cons]
    exact Nat.succ_le_succ (takeDigits_length n cs)
  · simp [takeDigits, if_neg h]

/-- A short all-digit input is taken whole. -/
theorem takeDigits_all : ∀ (n : ℕ) (cs : List Char),
    (∀ c ∈ cs, c.isDigit = true) → cs.length ≤ n → takeDigits n cs = (cs, [])
| 0, [], _, _ => rfl
| 0, _ :: _, _, hl => by simp at hl
| _ + 1, [], _, _ => rfl
| n + 1, c :: cs, hd, hl => by
  have h := hd c (List.mem_cons_self c cs)
  simp only [takeDigits, if_pos h]
  rw [takeDigits_all n cs (fun x hx => hd x (List.mem_cons_of_mem c hx))
    (by simpa using hl)]

/-- Inversion of a successful fraction parse: the input was a dot followed
by one to six digits and nothing else. -/
theorem msmFrac_eq_some {m sec : ℕ} {cs : List Char} {out : ℕ × ℕ × ℕ × ℕ}
    (h : msmFrac m sec cs = some out) :
    ∃ fcs : List Char, cs = '.' :: fcs ∧ (∀ c ∈ fcs, c.isDigit = true) ∧
      1 ≤ fcs.length ∧ fcs.length ≤ 6 ∧ out = (m, sec, digitsVal fcs, fcs.length) := by
  rcases cs with _ | ⟨c, cs2⟩
  · simp [msmFrac] at h
  · simp only [msmFrac] at h
    split_ifs at h with hc hcond
    · subst hc
      obtain ⟨h1, h2⟩ := hcond
      have happ := takeDigits_append 6 cs2
      rw [h2, List.append_nil] at happ
      exact ⟨(takeDigits 6 cs2).1, by rw [happ], takeDigits_digits 6 cs2, h1,
        takeDigits_length 6 cs2, (Option.some.inj h).symm⟩

/-- A dot followed by one to six digits and nothing else parses as the
fraction. -/
theorem msmFrac_complete (m sec : ℕ) (fcs : List Char)
    (hd : ∀ c ∈ fcs, c.isDigit = true) (h1 : 1 ≤ fcs.length) (h6 : fcs.length ≤ 6) :
    msmFrac m sec ('.' :: fcs) = some (m, sec, digitsVal fcs, fcs.length) := by
  simp only [msmFrac]
  rw [takeDigits_all 6 fcs hd h6]
  simp [h1]

/-- Inversion of a successful seconds-group parse on an ASCII input: one
or two leading digits of value at most 61, with the fraction parse
succeeding on the rest. -/
theorem msmSec_eq_some {m : ℕ} {cs : List Char} {out : ℕ × ℕ × ℕ × ℕ}
    (h : msmSec m cs = some out) (ha : ∀ c ∈ cs, c.toNat ≤ 127) :
    ∃ scs rest : List Char, cs = scs ++ rest ∧ (∀ c ∈ scs, c.isDigit = true) ∧
      1 ≤ scs.length ∧ scs.length ≤ 2 ∧ digitsVal scs ≤ 61 ∧
      msmFrac m (digitsVal scs) rest = some out := by
  rcases cs with _ | ⟨c1, _ | ⟨c2, rest⟩⟩
  · simp [msmSec] at h
  · simp only [msmSec, msmFrac] at h
    rcases (Option.orElse_eq_some _ _ _).mp h with h1 | ⟨_, h23⟩
    · exact Option.noConfusion h1
    rcases (Option.orElse_eq_some _ _ _).mp h23 with h2 | ⟨_, h3⟩
    · exact Option.noConfusion h2
    split_ifs at h3
  · simp only [msmSec] at h
    rcases (Option.orElse_eq_some _ _ _).mp h with h1 | ⟨_, h23⟩
    · split_ifs at h1 with hg
      · obtain ⟨h54, hor⟩ := hg
        have hc2 : c2.isDigit = true := by
          rw [isDigit_iff_toNat]
          rcases hor with h' | h' <;> omega
        rw [pyDigitVal_of_isDigit hc2] at h1
        refine ⟨[c1, c2], rest, rfl, ?_, by simp, by simp, ?_, ?_⟩
        · intro x hx
          simp only [List.mem_cons, List.not_mem_nil, or_false] at hx
          rcases hx with rfl | rfl
          · rw [isDigit_iff_toNat]; omega
          · exact hc2
        · rw [digitsVal_two]
          simp only [digitVal, h54]
          rcases hor with h' | h' <;> omega
        · rw [digitsVal_two]
          have hv : 10 * digitVal c1 + digitVal c2 = 60 + digitVal c2 := by
            simp only [digitVal, h54]
          rw [hv]
          exact h1
    rcases (Option.orElse_eq_some _ _ _).mp h23 with h2 | ⟨_, h3⟩
    · split_ifs at h2 with hg
      · obtain ⟨⟨hga, hgb⟩, hdig⟩ := hg
        have hc2 : c2.isDigit = true :=
          isDigit_of_isPyDigit_ascii hdig (ha c2 (by simp))
        have hc1 : c1.isDigit = true := by
          rw [isDigit_iff_toNat]
          omega
        have hb2 := (isDigit_iff_toNat c2).mp hc2
        rw [pyDigitVal_of_isDigit hc1, pyDigitVal_of_isDigit hc2] at h2
        refine ⟨[c1, c2], rest, rfl, ?_, by simp, by simp, ?_, ?_⟩
        · intro x hx
          simp only [List.mem_cons, List.not_mem_nil, or_false] at hx
          rcases hx with rfl | rfl
          · exact hc1
          · exact hc2
        · rw [digitsVal_two]
          simp only [digitVal]
          omega
        · rw [digitsVal_two]
          exact h2
    · split_ifs at h3 with hg
      · have hc1 : c1.isDigit = true :=
          isDigit_of_isPyDigit_ascii hg (ha c1 (by simp))
        have hb2 := (isDigit_iff_toNat c1).mp hc1
        rw [pyDigitVal_of_isDigit hc1] at h3
        refine ⟨[c1], c2 :: rest, rfl, ?_, by simp, by simp, ?_, ?_⟩
        · intro x hx
          simp only [List.mem_cons, List.not_mem_nil, or_false] at hx
          rw [hx]
          exact hc1
        · rw [digitsVal_one]
          simp only [digitVal]
          omega
        · rw [digitsVal_one]
          exact h3

/-- One or two digits of seconds value at most 59, followed by a valid
fraction tail, parse as the seconds group. -/
theorem msmSec_complete (m : ℕ) (scs fcs : List Char) (out : ℕ × ℕ × ℕ × ℕ)
    (hd : ∀ c ∈ scs, c.isDigit = true) (hlen1 : 1 ≤ scs.length) (hlen2 : scs.length ≤ 2)
    (h59 : digitsVal scs ≤ 59)
    (hfrac : msmFrac m (digitsVal scs) ('.' :: fcs) = some out) :
    msmSec m (scs ++ '.' :: fcs) = some out := by
  rcases scs with _ | ⟨c1, _ | ⟨c2, scs3⟩⟩
  · simp at hlen1
  · have hA : ¬ (c1.toNat = 54 ∧ (('.' : Char).toNat = 48 ∨ ('.' : Char).toNat = 49)) := by
      rintro ⟨-, h'⟩
      revert h'
      decide
    have hB : ¬ ((48 ≤ c1.toNat ∧ c1.toNat ≤ 53) ∧ isPyDigit '.' = true) := by
      rintro ⟨-, h'⟩
      revert h'
      decide
    simp only [List.cons_append, List.nil_append, msmSec]
    rw [if_neg hA, if_neg hB, Option.none_orElse, Option.none_orElse,
      if_pos (isPyDigit_of_isDigit (hd c1 (List.mem_cons_self c1 [])))]
    rw [digitsVal_one] at hfrac
    rw [pyDigitVal_of_isDigit (hd c1 (List.mem_cons_self c1 []))]
    exact hfrac
  · rcases scs3 with _ | ⟨c3, scs4⟩
    · have hd1 := (isDigit_iff_toNat c1).mp (hd c1 (by simp))
      have hd2 := (isDigit_iff_toNat c2).mp (hd c2 (by simp))
      rw [digitsVal_two] at h59 hfrac
      have h53 : c1.toNat ≤ 53 := by
        simp only [digitVal] at h59
        omega
      have hA : ¬ (c1.toNat = 54 ∧ (c2.toNat = 48 ∨ c2.toNat = 49)) := by
        rintro ⟨h54, -⟩
        omega
      have hB : (48 ≤ c1.toNat ∧ c1.toNat ≤ 53) ∧ isPyDigit c2 = true :=
        ⟨⟨hd1.1, h53⟩, isPyDigit_of_isDigit (hd c2 (by simp))⟩
      simp only [List.cons_append, List.nil_append, msmSec]
      rw [if_neg hA, Option.none_orElse, if_pos hB,
        pyDigitVal_of_isDigit (hd c1 (by simp)), pyDigitVal_of_isDigit (hd c2 (by simp)),
        hfrac, Option.some_orElse]
    · simp at hlen2

/-- Inversion of a successful minutes-tail parse: a colon then the seconds
group. -/
theorem msmMin_eq_some {m : ℕ} {cs : List Char} {out : ℕ × ℕ × ℕ × ℕ}
    (h : msmMin m cs = some out) :
    ∃ cs2, cs = ':' :: cs2 ∧ msmSec m cs2 = some out := by
  rcases cs with _ | ⟨c, cs2⟩
  · simp [msmMin] at h
  · simp only [msmMin] at h
    split_ifs at h with hc
    · subst hc
      exact ⟨cs2, rfl, h⟩

/-- A colon then the seconds group parse as the minutes tail. -/
theorem msmMin_complete (m : ℕ) (cs : List Char) :
    msmMin m (':' :: cs) = msmSec m cs := by
  simp [msmMin]

/-- Inversion of a successful whole-format match on an ASCII input: one or
two leading digits of minutes value at most 59, then the minutes tail. -/
theorem msmMatch_eq_some {cs : List Char} {out : ℕ × ℕ × ℕ × ℕ}
    (h : msmMatch cs = some out) (ha : ∀ c ∈ cs, c.toNat ≤ 127) :
    ∃ mcs rest : List Char, cs = mcs ++ rest ∧ (∀ c ∈ mcs, c.isDigit = true) ∧
      1 ≤ mcs.length ∧ mcs.length ≤ 2 ∧ digitsVal mcs ≤ 59 ∧
      msmMin (digitsVal mcs) rest = some out := by
  rcases cs with _ | ⟨c1, _ | ⟨c2, rest⟩⟩
  · simp [msmMatch] at h
  · simp only [msmMatch, msmMin] at h
    rcases (Option.orElse_eq_some _ _ _).mp h with h1 | ⟨_, h2⟩
    · exact Option.noConfusion h1
    split_ifs at h2
  · simp only [msmMatch] at h
    rcases (Option.orElse_eq_some _ _ _).mp h with h1 | ⟨_, h2⟩
    · split_ifs at h1 with hg
      · obtain ⟨⟨hga, hgb⟩, hdig⟩ := hg
        have hc2 : c2.isDigit = true :=
          isDigit_of_isPyDigit_ascii hdig (ha c2 (by simp))
        have hc1 : c1.isDigit = true := by
          rw [isDigit_iff_toNat]
          omega
        have hb2 := (isDigit_iff_toNat c2).mp hc2
        rw [pyDigitVal_of_isDigit hc1, pyDigitVal_of_isDigit hc2] at h1
        refine ⟨[c1, c2], rest, rfl, ?_, by simp, by simp, ?_, ?_⟩
        · intro x hx
          simp only [List.mem_cons, List.not_mem_nil, or_false] at hx
          rcases hx with rfl | rfl
          · exact hc1
          · exact hc2
        · rw [digitsVal_two]
          simp only [digitVal]
          omega
        · rw [digitsVal_two]
          exact h1
    · split_ifs at h2 with hg
      · have hc1 : c1.isDigit = true :=
          isDigit_of_isPyDigit_ascii hg (ha c1 (by simp))
        have hb2 := (isDigit_iff_toNat c1).mp hc1
        rw [pyDigitVal_of_isDigit hc1] at h2
        refine ⟨[c1], c2 :: rest, rfl, ?_, by simp, by simp, ?_, ?_⟩
        · intro x hx
          simp only [List.mem_cons, List.not_mem_nil, or_false] at hx
          rw [hx]
          exact hc1
        · rw [digitsVal_one]
          simp only [digitVal]
          omega
        · rw [digitsVal_one]
          exact h2

/-- One or two digits of minutes value at most 59, followed by a valid
colon tail, parse as the whole format. -/
theorem msmMatch_complete (mcs cs2 : List Char) (out : ℕ × ℕ × ℕ × ℕ)
    (hd : ∀ c ∈ mcs, c.isDigit = true) (hlen1 : 1 ≤ mcs.length) (hlen2 : mcs.length ≤ 2)
    (h59 : digitsVal mcs ≤ 59)
    (hmin : msmMin (digitsVal mcs) (':' :: cs2) = some out) :
    msmMatch (mcs ++ ':' :: cs2) = some out := by
  rcases mcs with _ | ⟨c1, _ | ⟨c2, mcs3⟩⟩
  · simp at hlen1
  · have hA : ¬ ((48 ≤ c1.toNat ∧ c1.toNat ≤ 53) ∧ isPyDigit ':' = true) := by
      rintro ⟨-, h'⟩
      revert h'
      decide
    simp only [List.cons_append, List.nil_append, msmMatch]
    rw [if_neg hA, Option.none_orElse,
      if_pos (isPyDigit_of_isDigit (hd c1 (List.mem_cons_self c1 [])))]
    rw [digitsVal_one] at hmin
    rw [pyDigitVal_of_isDigit (hd c1 (List.mem_cons_self c1 []))]
    exact hmin
  · rcases mcs3 with _ | ⟨c3, mcs4⟩
    · have hd1 := (isDigit_iff_toNat c1).mp (hd c1 (by simp))
      have hd2 := (isDigit_iff_toNat c2).mp (hd c2 (by simp))
      rw [digitsVal_two] at h59 hmin
      have h53 : c1.toNat ≤ 53 := by
        simp only [digitVal] at h59
        omega
      have hB : (48 ≤ c1.toNat ∧ c1.toNat ≤ 53) ∧ isPyDigit c2 = true :=
        ⟨⟨hd1.1, h53⟩, isPyDigit_of_isDigit (hd c2 (by simp))⟩
      simp only [List.cons_append, List.nil_append, msmMatch]
      rw [if_pos hB,
        pyDigitVal_of_isDigit (hd c1 (by simp)), pyDigitVal_of_isDigit (hd c2 (by simp)),
        hmin, Option.some_orElse]
    · simp at hlen2

/-- C9 (amended): restricted to ASCII strings, the duration parser
succeeds exactly on the strings of the minutes:seconds.fraction duration
format, returning the denoted duration in microseconds, and fails
(returns the error branch) on every other ASCII string.  (The restriction
is needed because strptime's `\d` also matches non-ASCII Unicode decimal
digits.) -/
theorem msm_to_tds_correct (s : String) (d : ℕ)
    (ha : ∀ c ∈ s.data, c.toNat ≤ 127) :
    msm_to_tds s = some d ↔ MSMSpec s d := by
  constructor
  · intro h
    simp only [msm_to_tds, Option.bind_eq_some] at h
    obtain ⟨⟨m, sec, fval, flen⟩, hm, hif⟩ := h
    split_ifs at hif with hc
    · have hd := Option.some.inj hif
      obtain ⟨mcs, rest, hcs, hdm, hm1, hm2, hm59, hmin⟩ := msmMatch_eq_some hm ha
      obtain ⟨cs2, hrest, hsec⟩ := msmMin_eq_some hmin
      have ha2 : ∀ c ∈ cs2, c.toNat ≤ 127 := by
        intro c hc2
        apply ha
        rw [hcs, hrest]
        exact List.mem_append_right _ (List.mem_cons_of_mem _ hc2)
      obtain ⟨scs, rest2, hcs2, hds, hs1, hs2, _, hfrac⟩ := msmSec_eq_some hsec ha2
      obtain ⟨fcs, hrest2, hdf, hf1, hf6, hout⟩ := msmFrac_eq_some hfrac
      simp only [Prod.mk.injEq] at hout
      obtain ⟨he1, he2, he3, he4⟩ := hout
      refine ⟨mcs, scs, fcs, ?_, hdm, hm1, hm2, hm59, hds, hs1, hs2, ?_, hdf, hf1, hf6, ?_⟩
      · rw [hcs, hrest, hcs2, hrest2]
      · rw [← he2]
        exact hc.2.1
      · rw [← hd, ← he1, ← he2, ← he3, ← he4]
  · rintro ⟨mcs, scs, fcs, hdata, hdm, hm1, hm2, hm59, hds, hs1, hs2, hs59, hdf, hf1,
      hf6, hd⟩
    have hfrac := msmFrac_complete (digitsVal mcs) (digitsVal scs) fcs hdf hf1 hf6
    have hsec := msmSec_complete (digitsVal mcs) scs fcs _ hds hs1 hs2 hs59 hfrac
    have hmin : msmMin (digitsVal mcs) (':' :: (scs ++ '.' :: fcs))
        = some (digitsVal mcs, digitsVal scs, digitsVal fcs, fcs.length) := by
      rw [msmMin_complete]
      exact hsec
    have hmatch := msmMatch_complete mcs (scs ++ '.' :: fcs) _ hdm hm1 hm2 hm59 hmin
    have hpad : digitsVal fcs * 10 ^ (6 - fcs.length) ≤ 999999 := by
      have hlt := digitsVal_lt fcs hdf
      have hmul : digitsVal fcs * 10 ^ (6 - fcs.length)
          < 10 ^ fcs.length * 10 ^ (6 - fcs.length) :=
        (Nat.mul_lt_mul_right (pow_pos (by norm_num) _)).mpr hlt
      have hpow : 10 ^ fcs.length * 10 ^ (6 - fcs.length) = 1000000 := by
        rw [← pow_add]
        have h6 : fcs.length + (6 - fcs.length) = 6 := by omega
        rw [h6]
        norm_num
      omega
    simp only [msm_to_tds]
    rw [hdata, hmatch, Option.some_bind]
    rw [if_pos ⟨hm59, hs59, hpad⟩]
    rw [hd]

/-- Witness for C9 (amended) at a concrete ASCII string recognised by the
parser. -/
theorem msm_to_tds_correct_witness :
    (∀ c ∈ ("01:45.235000" : String).data, c.toNat ≤ 127) ∧
    MSMSpec "01:45.235000" 105235000 :=
  ⟨by decide, (msm_to_tds_correct "01:45.235000" 105235000 (by decide)).mp rfl⟩

/-- Counterexample to C9 as stated: strptime compiles `\d` without
`re.ASCII`, so it matches any Unicode decimal digit and `int()` converts
it.  The parser therefore accepts the string using the Arabic-Indic digit
five (U+0665) in the minutes and seconds groups as 5 minutes 5.5 seconds,
even though that string does not match the duration digit format. -/
theorem msm_to_tds_unicode_counterexample :
    msm_to_tds "٥:٥.5" = some 305500000 ∧ ∀ d : ℕ, ¬ MSMSpec "٥:٥.5" d := by
  refine ⟨rfl, ?_⟩
  rintro d ⟨mcs, scs, fcs, hdata, hdm, hm1, -, -, -, -, -, -, -, -, -, -⟩
  rcases mcs with _ | ⟨c, mcs2⟩
  · simp at hm1
  · have hlist : ('٥' :: ':' :: '٥' :: '.' :: '5' :: ([] : List Char))
        = c :: (mcs2 ++ ':' :: (scs ++ '.' :: fcs)) := by
      rw [show ('٥' :: ':' :: '٥' :: '.' :: '5' :: ([] : List Char))
          = ("٥:٥.5" : String).data from rfl, hdata, List.cons_append]
    injection hlist with h1 h2
    have hd1 : c.isDigit = true := hdm c (List.mem_cons_self c mcs2)
    rw [← h1] at hd1
    exact absurd hd1 (by decide)

/-- A digit character rendered from a value below ten is a digit. -/
theorem digitChar_isDigit (n : ℕ) (h : n ≤ 9) : (digitChar n).isDigit = true := by
  interval_cases n <;> decide

/-- The code point of a rendered digit. -/
theorem digitChar_toNat (n : ℕ) (h : n ≤ 9) : (digitChar n).toNat = 48 + n := by
  interval_cases n <;> decide

/-- Rendering then reading a digit is the identity. -/
theorem digitChar_digitVal (n : ℕ) (h : n ≤ 9) : digitVal (digitChar n) = n := by
  simp [digitVal, digitChar_toNat n h]

/-- C8 (amended): for every duration shorter than 60 minutes, rendering it
in the `MM:SS.ffffff` format and re-parsing the string with the duration
parser yields the original duration, exact to the microsecond. -/
theorem format_parse_roundtrip (d : ℕ) (hlt : d < 3600000000) :
    msm_to_tds (formatMSM d) = some d := by
  have hm : d / 60000000 ≤ 59 := by omega
  have hs : d / 1000000 % 60 ≤ 59 := by omega
  have hdm : ∀ c ∈ [digitChar (d / 60000000 / 10), digitChar (d / 60000000 % 10)],
      c.isDigit = true := by
    intro c hc
    simp only [List.mem_cons, List.not_mem_nil, or_false] at hc
    rcases hc with rfl | rfl
    · exact digitChar_isDigit _ (by omega)
    · exact digitChar_isDigit _ (by omega)
  have hds : ∀ c ∈ [digitChar (d / 1000000 % 60 / 10), digitChar (d / 1000000 % 60 % 10)],
      c.isDigit = true := by
    intro c hc
    simp only [List.mem_cons, List.not_mem_nil, or_false] at hc
    rcases hc with rfl | rfl
    · exact digitChar_isDigit _ (by omega)
    · exact digitChar_isDigit _ (by omega)
  have hdf : ∀ c ∈ [digitChar (d % 1000000 / 100000), digitChar (d % 1000000 / 10000 % 10),
      digitChar (d % 1000000 / 1000 % 10), digitChar (d % 1000000 / 100 % 10),
      digitChar (d % 1000000 / 10 % 10), digitChar (d % 1000000 % 10)],
      c.isDigit = true := by
    intro c hc
    simp only [List.mem_cons, List.not_mem_nil, or_false] at hc
    rcases hc with rfl | rfl | rfl | rfl | rfl | rfl <;> exact digitChar_isDigit _ (by omega)
  have hvm : digitsVal [digitChar (d / 60000000 / 10), digitChar (d / 60000000 % 10)]
      = d / 60000000 := by
    rw [digitsVal_two, digitChar_digitVal _ (by omega), digitChar_digitVal _ (by omega)]
    omega
  have hvs : digitsVal [digitChar (d / 1000000 % 60 / 10), digitChar (d / 1000000 % 60 % 10)]
      = d / 1000000 % 60 := by
    rw [digitsVal_two, digitChar_digitVal _ (by omega), digitChar_digitVal _ (by omega)]
    omega
  have hvf : digitsVal [digitChar (d % 1000000 / 100000), digitChar (d % 1000000 / 10000 % 10),
      digitChar (d % 1000000 / 1000 % 10), digitChar (d % 1000000 / 100 % 10),
      digitChar (d % 1000000 / 10 % 10), digitChar (d % 1000000 % 10)] = d % 1000000 := by
    simp only [digitsVal, List.foldl_cons, List.foldl_nil]
    rw [digitChar_digitVal (d % 1000000 / 100000) (by omega),
      digitChar_digitVal (d % 1000000 / 10000 % 10) (by omega),
      digitChar_digitVal (d % 1000000 / 1000 % 10) (by omega),
      digitChar_digitVal (d % 1000000 / 100 % 10) (by omega),
      digitChar_digitVal (d % 1000000 / 10 % 10) (by omega),
      digitChar_digitVal (d % 1000000 % 10) (by omega)]
    omega
  have hfrac := msmFrac_complete
    (digitsVal [digitChar (d / 60000000 / 10), digitChar (d / 60000000 % 10)])
    (digitsVal [digitChar (d / 1000000 % 60 / 10), digitChar (d / 1000000 % 60 % 10)])
    [digitChar (d % 1000000 / 100000), digitChar (d % 1000000 / 10000 % 10),
      digitChar (d % 1000000 / 1000 % 10), digitChar (d % 1000000 / 100 % 10),
      digitChar (d % 1000000 / 10 % 10), digitChar (d % 1000000 % 10)]
    hdf (by simp) (by simp)
  have hsec := msmSec_complete _ _ _ _ hds (by simp) (by simp)
    (by rw [hvs]; exact hs) hfrac
  have hmin := msmMin_complete
    (digitsVal [digitChar (d / 60000000 / 10), digitChar (d / 60000000 % 10)])
    ([digitChar (d / 1000000 % 60 / 10), digitChar (d / 1000000 % 60 % 10)] ++
      '.' :: [digitChar (d % 1000000 / 100000), digitChar (d % 1000000 / 10000 % 10),
        digitChar (d % 1000000 / 1000 % 10), digitChar (d % 1000000 / 100 % 10),
        digitChar (d % 1000000 / 10 % 10), digitChar (d % 1000000 % 10)])
  rw [hsec] at hmin
  have hmatch := msmMatch_complete _ _ _ hdm (by simp) (by simp)
    (by rw [hvm]; exact hm) hmin
  have hdata : (formatMSM d).data =
      [digitChar (d / 60000000 / 10), digitChar (d / 60000000 % 10)] ++
        ':' :: ([digitChar (d / 1000000 % 60 / 10), digitChar (d / 1000000 % 60 % 10)] ++
          '.' :: [digitChar (d % 1000000 / 100000), digitChar (d % 1000000 / 10000 % 10),
            digitChar (d % 1000000 / 1000 % 10), digitChar (d % 1000000 / 100 % 10),
            digitChar (d % 1000000 / 10 % 10), digitChar (d % 1000000 % 10)]) := rfl
  simp only [msm_to_tds]
  rw [hdata, hmatch, Option.some_bind]
  have hcond : digitsVal [digitChar (d / 60000000 / 10), digitChar (d / 60000000 % 10)] ≤ 59 ∧
      digitsVal [digitChar (d / 1000000 % 60 / 10), digitChar (d / 1000000 % 60 % 10)] ≤ 59 ∧
      digitsVal [digitChar (d % 1000000 / 100000), digitChar (d % 1000000 / 10000 % 10),
        digitChar (d % 1000000 / 1000 % 10), digitChar (d % 1000000 / 100 % 10),
        digitChar (d % 1000000 / 10 % 10), digitChar (d % 1000000 % 10)] * 10 ^
        (6 - ([digitChar (d % 1000000 / 100000), digitChar (d % 1000000 / 10000 % 10),
          digitChar (d % 1000000 / 1000 % 10), digitChar (d % 1000000 / 100 % 10),
          digitChar (d % 1000000 / 10 % 10), digitChar (d % 1000000 % 10)] :
            List Char).length) ≤ 999999 := by
    refine ⟨by rw [hvm]; exact hm, by rw [hvs]; exact hs, ?_⟩
    rw [hvf]
    simp
    omega
  rw [if_pos hcond]
  have htotal : digitsVal [digitChar (d / 60000000 / 10), digitChar (d / 60000000 % 10)]
        * 60000000 +
      digitsVal [digitChar (d / 1000000 % 60 / 10), digitChar (d / 1000000 % 60 % 10)]
        * 1000000 +
      digitsVal [digitChar (d % 1000000 / 100000), digitChar (d % 1000000 / 10000 % 10),
        digitChar (d % 1000000 / 1000 % 10), digitChar (d % 1000000 / 100 % 10),
        digitChar (d % 1000000 / 10 % 10), digitChar (d % 1000000 % 10)] * 10 ^
        (6 - ([digitChar (d % 1000000 / 100000), digitChar (d % 1000000 / 10000 % 10),
          digitChar (d % 1000000 / 1000 % 10), digitChar (d % 1000000 / 100 % 10),
          digitChar (d % 1000000 / 10 % 10), digitChar (d % 1000000 % 10)] :
            List Char).length) = d := by
    rw [hvm, hvs, hvf]
    simp
    omega
  rw [htotal]

/-- Witness for C8 (amended) at a concrete duration. -/
theorem format_parse_roundtrip_witness :
    105235000 < 3600000000 ∧ msm_to_tds (formatMSM 105235000) = some 105235000 :=
  ⟨by norm_num, format_parse_roundtrip 105235000 (by norm_num)⟩

/-- Counterexample to C8 as stated: a duration of exactly 60 minutes
renders as `60:00.000000`, which the parser rejects (minutes above 59 do
not match the format), so the round trip does not return the original
duration. -/
theorem format_roundtrip_counterexample :
    msm_to_tds (formatMSM 3600000000) ≠ some 3600000000 := by
  have h : msm_to_tds (formatMSM 3600000000) = none := rfl
  rw [h]
  simp

end RaceStrategy
